import Mathlib

/-
Verification of the calcifer policy-evaluation engine.

The development shallowly embeds the policy tree (src/tree.py), the Partial
zipper (src/calcifer/partial.py together with src/partial.py), and the
StateT-over-List rule operators (src/operators.py, src/monads.py).  Python
values are modelled by `PyVal`, Python dicts by insertion-ordered association
lists, raised exceptions by the `Except` error channel, and the List monad of
outcomes by Lean lists.
-/

namespace Calcifer

/-- Python values that can live in a policy tree: `None`, booleans, integers,
strings, lists, and string-keyed dicts (insertion ordered, as in Python 3.7+). -/
inductive PyVal where
  | none
  | bool (b : Bool)
  | int (n : Int)
  | str (s : String)
  | list (xs : List PyVal)
  | dict (kvs : List (String × PyVal))

mutual

/-- Python `==` on the modelled values (structural equality). -/
def PyVal.beq : PyVal → PyVal → Bool
  | .none, .none => true
  | .bool a, .bool b => a == b
  | .int a, .int b => a == b
  | .str a, .str b => a == b
  | .list xs, .list ys => PyVal.beqList xs ys
  | .dict xs, .dict ys => PyVal.beqDict xs ys
  | _, _ => false

/-- Equality of Python lists, element by element. -/
def PyVal.beqList : List PyVal → List PyVal → Bool
  | [], [] => true
  | x :: xs, y :: ys => PyVal.beq x y && PyVal.beqList xs ys
  | _, _ => false

/-- Equality of Python dicts, key-value pair by pair (insertion order is kept
by the model; the claims only compare dicts built in the same order). -/
def PyVal.beqDict : List (String × PyVal) → List (String × PyVal) → Bool
  | [], [] => true
  | (k, x) :: xs, (l, y) :: ys => k == l && PyVal.beq x y && PyVal.beqDict xs ys
  | _, _ => false

end

/-- Python truthiness: `None`, `False`, `0`, `""`, `[]` and `{}` are falsy. -/
def PyVal.truthy : PyVal → Bool
  | .none => false
  | .bool b => b
  | .int n => n != 0
  | .str s => s != ""
  | .list xs => !xs.isEmpty
  | .dict kvs => !kvs.isEmpty

/-- Modelled from the spec: `definitions.py` is imported by src/tree.py but is
not under src/.  Per spec §3/§6 a Definition is an opaque constraint object
with `match(value) -> (matched, newDefinition)` and a current `value`.
`lit v` models `definitions.Value(v)`, the literal definition whose match is
equality with `v` and which stays unchanged by a successful match (src tests:
`LeafPolicyNode(Value("foobar"))` matches `"foobar"` and rejects `"barfu"`).
`defn val ok next` models an arbitrary definition: current value `val`,
`match w = (ok w, next w)`, covering any narrowing behaviour. -/
inductive Definition where
  | lit (v : PyVal)
  | defn (val : PyVal) (ok : PyVal → Bool) (next : PyVal → Definition)

/-- The literal definition `definitions.Value(v)` (modelled from the spec). -/
def Value (v : PyVal) : Definition := .lit v

/-- Current concrete value held by a definition (`definition.value`). -/
def Definition.value : Definition → PyVal
  | .lit v => v
  | .defn val _ _ => val

/-- `Definition.match(value) -> (matched, newDefinition)` (spec §6). -/
def Definition.matchD : Definition → PyVal → Bool × Definition
  | .lit v, w => (PyVal.beq w v, .lit v)
  | .defn _ ok next, w => (ok w, next w)

/-- Policy tree nodes, from src/tree.py: `UnknownPolicyNode`,
`LeafPolicyNode(definition)` and `DictPolicyNode(**nodes)` (children as an
insertion-ordered dict). -/
inductive PolicyNode where
  | unknown
  | leaf (definition : Definition)
  | dict (nodes : List (String × PolicyNode))

/-- Lookup in an insertion-ordered association list (Python `dict.get`). -/
def alookup (k : String) : List (String × α) → Option α
  | [] => Option.none
  | (k', v) :: rest => if k' = k then some v else alookup k rest

/-- Update in an insertion-ordered association list: Python `d[k] = v`
replaces the existing entry in place or appends a new one at the end. -/
def aset (k : String) (v : α) : List (String × α) → List (String × α)
  | [] => [(k, v)]
  | (k', v') :: rest => if k' = k then (k, v) :: rest else (k', v') :: aset k v rest

mutual

/-- Node `value` property (src/tree.py): `None` for Unknown, the definition's
value for a Leaf, and the dict of child values for a Dict. -/
def PolicyNode.value : PolicyNode → PyVal
  | .unknown => .none
  | .leaf d => d.value
  | .dict ns => .dict (PolicyNode.valueList ns)

/-- Child-by-child values of a Dict node. -/
def PolicyNode.valueList : List (String × PolicyNode) → List (String × PyVal)
  | [] => []
  | (k, n) :: rest => (k, PolicyNode.value n) :: PolicyNode.valueList rest

end

mutual

/-- `PolicyNode.from_obj` (src/tree.py): dicts become Dict nodes recursively,
anything else becomes `LeafPolicyNode(Value(obj))`. -/
def PolicyNode.from_obj : PyVal → PolicyNode
  | .dict kvs => .dict (PolicyNode.from_objList kvs)
  | .none => .leaf (Value .none)
  | .bool b => .leaf (Value (.bool b))
  | .int n => .leaf (Value (.int n))
  | .str s => .leaf (Value (.str s))
  | .list xs => .leaf (Value (.list xs))

/-- `from_obj` applied to every value of a dict. -/
def PolicyNode.from_objList : List (String × PyVal) → List (String × PolicyNode)
  | [] => []
  | (k, v) :: rest => (k, PolicyNode.from_obj v) :: PolicyNode.from_objList rest

end

/-- `PolicyNode.match(value)` (src/tree.py): Unknown always succeeds and
becomes `LeafPolicyNode(Value(value))`; a Leaf delegates to its definition;
a Dict always fails unchanged. -/
def PolicyNode.matchN : PolicyNode → PyVal → Bool × PolicyNode
  | .unknown, v => (true, .leaf (Value v))
  | .leaf d, v =>
      let md := d.matchD v
      (md.1, .leaf md.2)
  | .dict ns, _ => (false, .dict ns)

/-- Raised Python exceptions, kept on a channel distinct from the ordinary
list of outcomes.  `cannotTraverse` is `Exception("Node cannot be traversed")`
from `LeafPolicyNode.select`; `attributeError` models an `AttributeError`
(e.g. `partial.root.get` on a non-dict root); `invalidPointer` models
`jsonpointer`'s rejection of a pointer that does not start with `/`. -/
inductive Err where
  | cannotTraverse
  | attributeError
  | invalidPointer
deriving DecidableEq, Repr

/-- `PolicyNode.select(path)` (src/tree.py): empty path returns `(self, self)`;
Unknown materializes exactly the needed child; Dict looks up the child or
default-materializes an Unknown one, threading the substitution back up;
a Leaf with a remaining path raises `Exception("Node cannot be traversed")`.
Returns `(selected node, new root)`. -/
def PolicyNode.select : PolicyNode → List String → Except Err (PolicyNode × PolicyNode)
  | n, [] => .ok (n, n)
  | .unknown, first :: rest =>
      match PolicyNode.select .unknown rest with
      | .error e => .error e
      | .ok (value, subpolicy) => .ok (value, .dict [(first, subpolicy)])
  | .leaf _, _ :: _ => .error .cannotTraverse
  | .dict ns, first :: rest =>
      match PolicyNode.select ((alookup first ns).getD .unknown) rest with
      | .error e => .error e
      | .ok (node, newFirst) => .ok (node, .dict (aset first newFirst ns))

/-- Modelled from the spec: replacing the node a zipper is focused on
(`calcifer/zipper.py` is not under src/).  `setAt t path x` rebuilds the root
with `x` substituted at `path`, materializing Unknown/missing children along
the way exactly as `select` does, and raising the same structural error when
the path would traverse a Leaf. -/
def PolicyNode.setAt : PolicyNode → List String → PolicyNode → Except Err PolicyNode
  | _, [], new => .ok new
  | .unknown, first :: rest, new =>
      match PolicyNode.setAt .unknown rest new with
      | .error e => .error e
      | .ok sub => .ok (.dict [(first, sub)])
  | .leaf _, _ :: _, _ => .error .cannotTraverse
  | .dict ns, first :: rest, new =>
      match PolicyNode.setAt ((alookup first ns).getD .unknown) rest new with
      | .error e => .error e
      | .ok sub => .ok (.dict (aset first sub ns))

/-- Keys of a Dict node, in insertion order — the intended value of the
`children()` operator per spec §4.3 and src/tests/test_operators.py. -/
def PolicyNode.keysOf : PolicyNode → List String
  | .dict ns => ns.map Prod.fst
  | _ => []

/-- Python `hasattr(node, "keys")` for the node classes of src/tree.py:
`UnknownPolicyNode`, `LeafPolicyNode` and `DictPolicyNode` define `value`,
`definition`/`nodes`, `select`, `match`, `get_template` — none of them defines
a `keys` attribute or property, so the check is false for every node. -/
def PolicyNode.hasKeysAttr : PolicyNode → Bool
  | .unknown => false
  | .leaf _ => false
  | .dict _ => false

/-- Split a character list at every occurrence of `c` (Python `str.split`):
the result always has one more group than there are separators. -/
def splitCharAux (c : Char) : List Char → List (List Char)
  | [] => [[]]
  | a :: rest =>
      match splitCharAux c rest with
      | [] => [[]]
      | g :: gs => if a = c then [] :: g :: gs else (a :: g) :: gs

/-- Python `"/".join(steps)`. -/
def joinSlash : List String → String
  | [] => ""
  | [s] => s
  | s :: rest => s ++ "/" ++ joinSlash rest

/-- Absolute components of a scope string, as `os.path.relpath` followed by
the zipper walk of `calcifer/partial.py` produces them: split on `/`, drop
empty components and `.`, and let `..` pop one step (never above the root,
matching `os.path.normpath` on absolute paths). -/
def splitScope (s : String) : List String :=
  (((splitCharAux '/' s.data).map (fun l => String.mk l)).filter
      (fun step => step != "" && step != ".")).foldl
    (fun acc step => if step = ".." then acc.dropLast else acc ++ [step]) []

/-- A path step that survives the scope-string round trip: nonempty, not one
of the pseudo-steps `.` and `..`, and free of the `/` separator. -/
def validStep (s : String) : Bool :=
  s != "" && s != "." && s != ".." && s.data.all (fun a => a != '/')

/-- A Partial (src/partial.py, src/calcifer/partial.py): a root policy node
plus the current scope path.  The calcifer version stores a zipper; since
`calcifer/zipper.py` is not under src/, the zipper is modelled by its root
and focus path (the observable state used by every operation). -/
structure Partial where
  root : PolicyNode
  path : List String

/-- `Partial.from_obj(obj)` with the scope at the root. -/
def Partial.from_obj (obj : PyVal) : Partial :=
  ⟨PolicyNode.from_obj obj, []⟩

/-- The `scope` property (src/calcifer/partial.py):
`"/" + "/".join(str(step) for step in path)`. -/
def Partial.scope (p : Partial) : String :=
  "/" ++ joinSlash p.path

/-- Scope-string arithmetic of `Partial.select` (src/calcifer/partial.py):
empty selector re-selects the current scope, a selector not starting with `/`
is appended to the current scope, and the result is resolved to absolute path
components (the `os.path.relpath` computation plus the zipper walk, with `..`
popping a step).  Integer coercion of steps (`maybe_coerce_to_int`) is
omitted: the tree's dict keys are strings (src/tree.py). -/
def Partial.resolve (p : Partial) (selector : String) : List String :=
  let scope :=
    if selector.data = [] then p.scope
    else if selector.data.head? ≠ some '/' then p.scope ++ "/" ++ selector
    else selector
  splitScope scope

/-- `Partial.select(scope, set_path)` (src/calcifer/partial.py): resolve the
selector against the current scope, walk the tree there (materializing
missing nodes), and return the node plus a new Partial whose path moved to
the selector when `set_path` and stays put otherwise (the materialized tree
is kept either way). -/
def Partial.select (p : Partial) (selector : String) (set_path : Bool := true) :
    Except Err (PolicyNode × Partial) :=
  let target := p.resolve selector
  match p.root.select target with
  | .error e => .error e
  | .ok (node, newRoot) =>
      .ok (node, ⟨newRoot, if set_path then target else p.path⟩)

/-- The `root` property (src/calcifer/partial.py:33-35):
`zipper.root.node.value`, the whole tree as a Python object. -/
def Partial.rootObj (p : Partial) : PyVal :=
  p.root.value

/-- The `scope_value` property (src/calcifer/partial.py): the value of the
node at the current scope, selected without moving the path. -/
def Partial.scope_value (p : Partial) : Except Err PyVal :=
  match p.select p.scope false with
  | .error e => .error e
  | .ok (node, _) => .ok node.value

/-- `Partial.set_node(node)` (src/calcifer/partial.py): replace the node at
the current scope, keeping the path. -/
def Partial.set_node (p : Partial) (node : PolicyNode) :
    Except Err (PolicyNode × Partial) :=
  match p.root.setAt p.path node with
  | .error e => .error e
  | .ok newRoot => .ok (node, ⟨newRoot, p.path⟩)

/-- `Partial.set_value(value, selector=None)` (src/calcifer/partial.py):
optionally select first, then replace the node at scope with
`PolicyNode.from_obj(value)`. -/
def Partial.set_value (p : Partial) (value : PyVal)
    (selector : Option String := Option.none) : Except Err (PyVal × Partial) :=
  let q? : Except Err Partial :=
    match selector with
    | Option.none => .ok p
    | some sel =>
        match p.select sel with
        | .error e => .error e
        | .ok (_, q) => .ok q
  match q? with
  | .error e => .error e
  | .ok q =>
      match q.root.setAt q.path (PolicyNode.from_obj value) with
      | .error e => .error e
      | .ok newRoot => .ok (value, (⟨newRoot, q.path⟩ : Partial))

/-- `Partial.define_as(definition)` (src/calcifer/partial.py:104-114): if the
node at scope already holds a truthy value, the definition must match it
(narrowing to the returned definition) or the operation yields `(None, self)`;
then the node at scope is replaced by a Leaf of the (possibly narrowed)
definition. -/
def Partial.define_as (p : Partial) (definition : Definition) :
    Except Err (Option Definition × Partial) :=
  match p.scope_value with
  | .error e => .error e
  | .ok existing_value =>
      let d? : Option Definition :=
        if existing_value.truthy then
          let md := definition.matchD existing_value
          if md.1 then some md.2 else Option.none
        else some definition
      match d? with
      | Option.none => .ok (Option.none, p)
      | some d =>
          match p.set_node (.leaf d) with
          | .error e => .error e
          | .ok (_, p') => .ok (some d, p')

/-- `Partial.match(value)` (src/partial.py, src/calcifer/partial.py): select
the node at the current scope, match it against the value, and keep the
updated tree only when the match succeeded. -/
def Partial.matchP (p : Partial) (value : PyVal) : Except Err (Bool × Partial) :=
  match p.select "" with
  | .error e => .error e
  | .ok (node, new_self) =>
      let mn := node.matchN value
      match new_self.set_node mn.2 with
      | .error e => .error e
      | .ok (_, new_partial) =>
          if mn.1 then .ok (true, new_partial) else .ok (false, p)

/-- All steps of the current path survive the scope-string round trip. -/
def Partial.validPath (p : Partial) : Bool :=
  p.path.all validStep

/-- JSON-pointer escaping (the `jsonpointer` library used by src/partial.py):
`~` becomes `~0` and `/` becomes `~1`. -/
def escapeJP : List Char → List Char
  | [] => []
  | '~' :: rest => '~' :: '0' :: escapeJP rest
  | '/' :: rest => '~' :: '1' :: escapeJP rest
  | c :: rest => c :: escapeJP rest

/-- JSON-pointer unescaping: `~1` back to `/`, `~0` back to `~`. -/
def unescapeJP : List Char → List Char
  | [] => []
  | '~' :: '1' :: rest => '/' :: unescapeJP rest
  | '~' :: '0' :: rest => '~' :: unescapeJP rest
  | c :: rest => c :: unescapeJP rest

/-- `JsonPointer.from_parts(parts).path`: each part escaped and prefixed by
`/` (the empty part list gives the empty pointer). -/
def jpFromParts (parts : List String) : String :=
  String.mk (parts.foldl (fun acc part => acc ++ '/' :: escapeJP part.data) [])

/-- `JsonPointer(pointer).parts`: split on `/`; the fragment before the first
`/` must be empty (otherwise the library raises), the remaining fragments are
unescaped. -/
def jpParts (pointer : String) : Except Err (List String) :=
  match splitCharAux '/' pointer.data with
  | [] :: rest => .ok (rest.map (fun l => String.mk (unescapeJP l)))
  | _ => .error .invalidPointer

/-- `Partial.select(selector, set_path)` as written in src/partial.py:43-60:
selector arithmetic through JSON-pointer strings (`""` re-selects the current
scope, a selector not starting with `/` is appended to the current pointer),
then `PolicyNode.select` on the parsed parts; `set_path=False` keeps the old
path while still keeping the materialized tree. -/
def Partial.selectJP (p : Partial) (selector : String) (set_path : Bool := true) :
    Except Err (PolicyNode × Partial) :=
  let old_selector := jpFromParts p.path
  let sel :=
    if selector.data = [] then old_selector
    else if selector.data.head? ≠ some '/' then old_selector ++ "/" ++ selector
    else selector
  match jpParts sel with
  | .error e => .error e
  | .ok selected_path =>
      match p.root.select selected_path with
      | .error e => .error e
      | .ok (node, new_root) =>
          .ok (node, ⟨new_root, if set_path then selected_path else p.path⟩)

/-- A monadic result value as it flows between rules: a plain Python value, a
policy node (operators such as `select` and `get_node` yield nodes), or a
definition (yielded by `define_as`). -/
inductive RVal where
  | py (v : PyVal)
  | node (n : PolicyNode)
  | defn (d : Definition)

/-- One branch of a non-deterministic evaluation: `(value, partial)`. -/
abbrev Outcome := RVal × Partial

/-- Result of running a rule on a Partial: either a raised exception, or the
ordered list of outcome branches (the List monad of src/monads.py). -/
abbrev PolicyResult := Except Err (List Outcome)

/-- A policy rule (src/monads.py): a function from a Partial to an ordered
list of `(value, partial)` outcomes.  AST tags, which only feed tracing, are
not modelled. -/
abbrev Rule := Partial → PolicyResult

/-- Sequential effectful map: Python evaluates branches left to right and the
first raised exception aborts the whole computation. -/
def exceptMapM (f : α → Except Err β) : List α → Except Err (List β)
  | [] => .ok []
  | a :: rest =>
      match f a with
      | .error e => .error e
      | .ok b =>
          match exceptMapM f rest with
          | .error e => .error e
          | .ok bs => .ok (b :: bs)

/-- Bind of the StateT-over-List monad (src/monads.py `StateT.bind`): run the
continuation on every outcome in encounter order and concatenate the result
lists; a raised exception propagates instead of producing outcomes. -/
def mBindE (r : PolicyResult) (f : Outcome → PolicyResult) : PolicyResult :=
  match r with
  | .error e => .error e
  | .ok xs =>
      match exceptMapM f xs with
      | .error e => .error e
      | .ok yss => .ok yss.flatten

/-- Rule sequencing `rule >> f` where `f` builds the next rule from the
incoming value. -/
def bindR (r : Rule) (f : RVal → Rule) : Rule := fun p =>
  mBindE (r p) (fun out => f out.1 out.2)

/-- An argument to the sequencing combinators: either an already-built
PolicyRule (run as-is, ignoring the incoming value, per `PolicyRule.bind` in
src/monads.py) or a rule function applied to the incoming value. -/
inductive RuleFunc where
  | rule (r : Rule)
  | func (f : RVal → Rule)

/-- `unit(value) >> rule_func`: how the combinators feed a value to a step. -/
def RuleFunc.apply : RuleFunc → RVal → Rule
  | .rule r, _ => r
  | .func f, v => f v

/-- `unit(value)` (src/operators.py): one outcome, unchanged Partial. -/
def unit (value : RVal) : Rule := fun p =>
  .ok [(value, p)]

/-- `unit_value(node)` (src/operators.py): the node's `value` if the incoming
result has a `value` attribute (nodes and definitions do, plain Python values
do not), else `None`. -/
def unit_value (v : RVal) : Rule := fun p =>
  .ok [(.py (match v with
    | .node n => n.value
    | .defn d => d.value
    | .py _ => .none), p)]

/-- `fail()` (src/operators.py): zero outcomes for any input. -/
def fail : Rule := fun _ =>
  .ok []

/-- The `select` operator (src/operators.py): retrieves the node at a
selector, optionally moving the scope there. -/
def selectOp (selector : String) (set_path : Bool := false) : Rule := fun p =>
  match p.select selector set_path with
  | .error e => .error e
  | .ok (node, p') => .ok [(.node node, p')]

/-- The `set_value` operator (src/operators.py): sets the value of the
currently scoped node. -/
def set_value (value : PyVal) : Rule := fun p =>
  match p.set_value value with
  | .error e => .error e
  | .ok (v, p') => .ok [(.py v, p')]

/-- The `scope` operator (src/operators.py): yields the current scope
selector. -/
def scopeOp : Rule := fun p =>
  .ok [(.py (.str p.scope), p)]

/-- The `define_as` operator (src/operators.py:187-200): delegates to
`Partial.define_as` and collapses to zero outcomes when it yields `None`. -/
def define_as (definition : Definition) : Rule := fun p =>
  match p.define_as definition with
  | .error e => .error e
  | .ok (Option.none, _) => .ok []
  | .ok (some d, new_partial) => .ok [(.defn d, new_partial)]

/-- The `children` operator (src/operators.py:121-132): selects the node at
the current scope and yields `node.keys` if the node has a `keys` attribute,
else the empty list.  No node class of src/tree.py has one. -/
def children : Rule := fun p =>
  match p.select "" with
  | .error e => .error e
  | .ok (node, _) =>
      if !node.hasKeysAttr then
        .ok [(.py (.list []), p)]
      else
        .ok [(.py (.list (node.keysOf.map PyVal.str)), p)]

/-- The `match` operator (src/operators.py): matches the currently scoped
node against an expected value; a failed match collapses the branch to zero
outcomes, a successful one keeps the updated Partial. -/
def matchOp (compare_to : PyVal) : Rule := fun p =>
  match p.matchP compare_to with
  | .error e => .error e
  | .ok (matched, new_partial) =>
      if matched then .ok [(.py compare_to, new_partial)] else .ok []

/-- `permit_values(permitted_values)` (src/operators.py:435-456): match the
current Partial against each permitted value in input order, forking the
computation (`mzero` plus `mplus` of the per-value `match` runs). -/
def permit_values (permitted_values : List PyVal) : Rule := fun p =>
  match exceptMapM (fun value => matchOp value p) permitted_values with
  | .error e => .error e
  | .ok results => .ok results.flatten

/-- `collect(*rule_funcs)` (src/operators.py): feed one incoming value to
each rule function in turn, re-selecting the initial scope before every
step. -/
def collect (rule_funcs : List RuleFunc) (incoming_value : RVal) : Rule :=
  fun initial_partial =>
    let initial_scope := initial_partial.scope
    rule_funcs.foldl
      (fun acc rule_func =>
        mBindE acc (fun out =>
          match out.2.select initial_scope true with
          | .error e => .error e
          | .ok (_, scoped_partial) => rule_func.apply incoming_value scoped_partial))
      (.ok [(incoming_value, initial_partial)])

/-- `policies(*rule_funcs)` (src/operators.py:275-307): apply each rule in
turn, re-selecting the initial scope before every step and feeding `None` to
each rule function. -/
def policies (rule_funcs : List RuleFunc) : Rule :=
  fun initial_partial =>
    let initial_scope := initial_partial.scope
    rule_funcs.foldl
      (fun acc rule_func =>
        mBindE acc (fun out =>
          match out.2.select initial_scope true with
          | .error e => .error e
          | .ok (_, scoped_partial) => rule_func.apply (.py .none) scoped_partial))
      (.ok [(.py .none, initial_partial)])

/-- One step of `regarding` (src/operators.py:327-348): remember the current
scope, move to the selector, pass the node's value (or, when that value is
falsy, the node itself) to the rule function, run it there, and re-select the
remembered scope on every outcome, yielding the selected value. -/
def regarding_step (selector : String) (rule_func : RuleFunc) : Rule := fun p =>
  let original_scope := p.scope
  match p.select selector true with
  | .error e => .error e
  | .ok (node, inner_partial) =>
      let value : RVal := if !node.value.truthy then .node node else .py node.value
      match (match rule_func with
             | .rule r => r inner_partial
             | .func f => f value inner_partial) with
      | .error e => .error e
      | .ok results =>
          exceptMapM
            (fun out =>
              match out.2.select original_scope true with
              | .error e => .error e
              | .ok (_, rescoped_partial) => .ok (value, rescoped_partial))
            results

/-- `regarding(selector, *rule_funcs)` (src/operators.py:310-358): with rule
functions, sequence the per-function `regarding_step`s through `policies`;
with none, peek at the selector without moving and yield the node's value. -/
def regarding (selector : String) (rule_funcs : List RuleFunc) : Rule :=
  if rule_funcs.isEmpty then
    bindR (selectOp selector false) unit_value
  else
    policies (rule_funcs.map (fun rf => .rule (regarding_step selector rf)))

/-- `attempt(*rules, catch?)` (src/operators.py:459-491): run the rules via
`collect` on the incoming value and Partial; when the combined result is the
empty list, fall back to `catch` applied to the original value and Partial if
provided, else to the original `(value, partial)` as the sole outcome; a
non-empty result is returned as-is. -/
def attempt (rules : List RuleFunc) (catchF : Option RuleFunc) : RVal → Rule :=
  fun value => fun initial_partial =>
    match collect rules value initial_partial with
    | .error e => .error e
    | .ok result =>
        if result.isEmpty then
          match catchF with
          | some c => c.apply value initial_partial
          | Option.none => .ok [(value, initial_partial)]
        else
          .ok result

/-- `unless_errors(*rules)` (src/operators.py:587-598): when the root object
already has a truthy `errors` entry, yield the unchanged Partial as the only
outcome; otherwise run `policies(*rules)`.  `partial.root.get` requires the
root object to be a dict (anything else raises `AttributeError`). -/
def unless_errors (rules : List RuleFunc) : Rule := fun p =>
  match p.rootObj with
  | .dict kvs =>
      let errors := (alookup "errors" kvs).getD .none
      if errors.truthy then .ok [(.py .none, p)]
      else policies rules p
  | _ => .error .attributeError

/-- An Incomplete (src/contexts/base.py:140-162): a pending computation with
its completion function, the set of still-missing ContextualValues, and the
true values accumulated so far.  ContextualValues are modelled by an
arbitrary type `κ` with decidable equality (they hash and compare by builder
identity); the supplied mapping is an insertion-ordered dict. -/
structure Incomplete (κ R : Type) [DecidableEq κ] (V : Type) where
  func : List (κ × V) → R
  missing : Finset κ
  got : List (κ × V)

/-- Python `dict.update`: entries of `tv` overwrite entries of `got`, new
keys are appended in order. -/
def dictUpdate [DecidableEq κ] (got tv : List (κ × V)) : List (κ × V) :=
  tv.foldl (fun acc kv => if acc.any (fun kv' => kv'.1 = kv.1)
      then acc.map (fun kv' => if kv'.1 = kv.1 then kv else kv')
      else acc ++ [kv]) got

/-- `Incomplete.complete(true_values)` (src/contexts/base.py:148-162): merge
the supplied values into `got`, remove their keys from `missing`, and either
finish by calling `func` when nothing is missing or return a narrower
Incomplete. -/
def Incomplete.complete [DecidableEq κ] (i : Incomplete κ R V) (true_values : List (κ × V)) :
    R ⊕ Incomplete κ R V :=
  let got := dictUpdate i.got true_values
  let missing := i.missing \ (true_values.map Prod.fst).toFinset
  if missing = ∅ then
    .inl (i.func got)
  else
    .inr ⟨i.func, missing, got⟩

theorem alookup_aset_self (k : String) (v : α) (l : List (String × α)) :
    alookup k (aset k v l) = some v := by
  induction l with
  | nil => simp [aset, alookup]
  | cons kv rest ih =>
      obtain ⟨k', v'⟩ := kv
      by_cases h : k' = k
      · simp [aset, alookup, h]
      · simp [aset, alookup, h, ih]

theorem aset_aset_self (k : String) (v : α) (l : List (String × α)) :
    aset k v (aset k v l) = aset k v l := by
  induction l with
  | nil => simp [aset]
  | cons kv rest ih =>
      obtain ⟨k', v'⟩ := kv
      by_cases h : k' = k
      · simp [aset, h]
      · simp [aset, h, ih]

theorem splitCharAux_ne_nil (c : Char) (s : List Char) : splitCharAux c s ≠ [] := by
  cases s with
  | nil => simp [splitCharAux]
  | cons a rest =>
      simp only [splitCharAux]
      cases h : splitCharAux c rest with
      | nil => simp
      | cons g gs =>
          by_cases hac : a = c <;> simp [hac]

theorem splitCharAux_cons_self (c : Char) (xs : List Char) :
    splitCharAux c (c :: xs) = [] :: splitCharAux c xs := by
  simp only [splitCharAux]
  cases h : splitCharAux c xs with
  | nil => exact absurd h (splitCharAux_ne_nil c xs)
  | cons g gs => simp

theorem splitCharAux_cons_ne (c a : Char) (xs : List Char) (ha : a ≠ c) :
    splitCharAux c (a :: xs)
      = (a :: (splitCharAux c xs).headI) :: (splitCharAux c xs).tail := by
  simp only [splitCharAux]
  cases h : splitCharAux c xs with
  | nil => exact absurd h (splitCharAux_ne_nil c xs)
  | cons g gs => simp [ha]

theorem splitCharAux_append_sep (xs zs : List Char) (h : '/' ∉ xs) :
    splitCharAux '/' (xs ++ '/' :: zs) = xs :: splitCharAux '/' zs := by
  induction xs with
  | nil => simpa using splitCharAux_cons_self '/' zs
  | cons a xs ih =>
      have ha : a ≠ '/' := by
        intro hh
        exact h (by simp [hh])
      have hxs : '/' ∉ xs := fun hh => h (by simp [hh])
      rw [List.cons_append, splitCharAux_cons_ne _ _ _ ha, ih hxs]
      simp

theorem splitCharAux_no_sep (xs : List Char) (h : '/' ∉ xs) :
    splitCharAux '/' xs = [xs] := by
  induction xs with
  | nil => simp [splitCharAux]
  | cons a xs ih =>
      have ha : a ≠ '/' := by
        intro hh
        exact h (by simp [hh])
      have hxs : '/' ∉ xs := fun hh => h (by simp [hh])
      rw [splitCharAux_cons_ne _ _ _ ha, ih hxs]
      simp

theorem mk_data (s : String) : String.mk s.data = s := by
  cases s
  rfl

theorem validStep_no_sep (s : String) (hs : validStep s = true) : '/' ∉ s.data := by
  unfold validStep at hs
  simp only [Bool.and_eq_true, List.all_eq_true, bne_iff_ne] at hs
  intro hmem
  exact hs.2 '/' hmem rfl

theorem joinSlash_components (path : List String) (h : ∀ s ∈ path, validStep s = true)
    (hne : path ≠ []) :
    splitCharAux '/' (joinSlash path).data = path.map String.data := by
  induction path with
  | nil => exact absurd rfl hne
  | cons s rest ih =>
      have hnos : '/' ∉ s.data := validStep_no_sep s (h s (by simp))
      cases rest with
      | nil => simpa [joinSlash] using splitCharAux_no_sep s.data hnos
      | cons t rest' =>
          have hrest : ∀ x ∈ t :: rest', validStep x = true := by
            intro x hx
            exact h x (by simp [hx])
          have ih' := ih hrest (by simp)
          show splitCharAux '/' (s ++ "/" ++ joinSlash (t :: rest')).data = _
          rw [String.data_append, String.data_append]
          have hslash : ("/" : String).data = ['/'] := rfl
          rw [hslash, List.append_assoc, List.singleton_append]
          rw [splitCharAux_append_sep s.data _ hnos, ih']
          simp

theorem foldl_scope_steps (steps : List String) (h : ∀ s ∈ steps, validStep s = true)
    (acc : List String) :
    steps.foldl (fun acc step => if step = ".." then acc.dropLast else acc ++ [step]) acc
      = acc ++ steps := by
  induction steps generalizing acc with
  | nil => simp
  | cons s rest ih =>
      have hs : validStep s = true := h s (by simp)
      have hdd : s ≠ ".." := by
        unfold validStep at hs
        simp only [Bool.and_eq_true, bne_iff_ne] at hs
        exact hs.1.2
      have hrest : ∀ x ∈ rest, validStep x = true := fun x hx => h x (by simp [hx])
      simp only [List.foldl_cons, if_neg hdd]
      rw [ih hrest]
      simp

theorem splitScope_scope (path : List String) (h : path.all validStep = true) :
    splitScope ("/" ++ joinSlash path) = path := by
  have hall : ∀ s ∈ path, validStep s = true := by
    intro s hs
    exact List.all_eq_true.mp h s hs
  cases path with
  | nil => rfl
  | cons s rest =>
      unfold splitScope
      rw [String.data_append]
      have hslash : ("/" : String).data = ['/'] := rfl
      rw [hslash, List.singleton_append, splitCharAux_cons_self]
      rw [joinSlash_components (s :: rest) hall (by simp)]
      have hmk : ((s :: rest).map String.data).map (fun l => String.mk l) = s :: rest := by
        rw [List.map_map]
        have hcomp : (fun l => String.mk l) ∘ String.data = id := by
          funext x
          exact mk_data x
        rw [hcomp, List.map_id]
      rw [List.map_cons, hmk]
      have hemp : ((String.mk [] != "" && String.mk [] != ".")) = false := by decide
      rw [List.filter_cons, if_neg (by simp [hemp])]
      have hfilter : (s :: rest).filter (fun step => step != "" && step != ".") = s :: rest := by
        apply List.filter_eq_self.mpr
        intro x hx
        have hvs := hall x hx
        unfold validStep at hvs
        simp only [Bool.and_eq_true] at hvs
        simp [hvs.1.1.1, hvs.1.1.2]
      rw [hfilter]
      exact foldl_scope_steps (s :: rest) hall []

theorem aset_single (k : String) (v w : α) : aset k v [(k, w)] = [(k, v)] := by
  simp [aset]

theorem scope_data (p : Partial) :
    (Partial.scope p).data = '/' :: (joinSlash p.path).data := by
  unfold Partial.scope
  rw [String.data_append]
  rfl

theorem resolve_scope (q p : Partial) : q.resolve p.scope = splitScope p.scope := by
  unfold Partial.resolve
  rw [scope_data p]
  simp

theorem resolve_scope_valid (q p : Partial) (h : p.validPath = true) :
    q.resolve p.scope = p.path := by
  rw [resolve_scope]
  exact splitScope_scope p.path h

theorem scope_eq_of_path_eq (p q : Partial) (h : p.path = q.path) : p.scope = q.scope := by
  unfold Partial.scope
  rw [h]

theorem select_ok_iff (p : Partial) (sel : String) (set_path : Bool) (n : PolicyNode)
    (q : Partial) :
    p.select sel set_path = .ok (n, q) ↔
      p.root.select (p.resolve sel) = .ok (n, q.root)
        ∧ q.path = (if set_path then p.resolve sel else p.path) := by
  unfold Partial.select
  cases h : p.root.select (p.resolve sel) with
  | error e => simp [h, Except.bind]
  | ok nr =>
      obtain ⟨n', r'⟩ := nr
      constructor
      · intro hh
        simp only [h, Except.bind] at hh
        cases hh
        simp
      · intro hh
        obtain ⟨h1, h2⟩ := hh
        cases h1
        simp only [h, Except.bind]
        obtain ⟨qr, qp⟩ := q
        simp_all

theorem select_nil (t : PolicyNode) : t.select [] = .ok (t, t) := by
  cases t <;> rfl

theorem setAt_nil (t x : PolicyNode) : t.setAt [] x = .ok x := by
  cases t <;> rfl

theorem alookup_single (k : String) (v : α) : alookup k [(k, v)] = some v := by
  simp [alookup]

theorem select_idem (path : List String) :
    ∀ (t n r : PolicyNode), t.select path = .ok (n, r) → r.select path = .ok (n, r) := by
  induction path with
  | nil =>
      intro t n r h
      rw [select_nil] at h
      cases h
      exact select_nil t
  | cons first rest ih =>
      intro t n r h
      cases t with
      | unknown =>
          simp only [PolicyNode.select] at h
          cases hsub : PolicyNode.select .unknown rest with
          | error e => rw [hsub] at h; simp at h
          | ok vs =>
              obtain ⟨v, sub⟩ := vs
              rw [hsub] at h
              simp only at h
              cases h
              have hsub' := ih _ _ _ hsub
              simp only [PolicyNode.select, alookup_single, Option.getD_some]
              rw [hsub']
              simp [aset_single]
      | leaf d => simp [PolicyNode.select] at h
      | dict ns =>
          simp only [PolicyNode.select] at h
          cases hc : PolicyNode.select ((alookup first ns).getD .unknown) rest with
          | error e => rw [hc] at h; simp at h
          | ok nf =>
              obtain ⟨n0, f0⟩ := nf
              rw [hc] at h
              simp only at h
              cases h
              have hc' := ih _ _ _ hc
              simp only [PolicyNode.select, alookup_aset_self, Option.getD_some]
              rw [hc']
              simp [aset_aset_self]

theorem select_setAt (path : List String) :
    ∀ (t n r : PolicyNode), t.select path = .ok (n, r) → ∀ (x : PolicyNode),
      ∃ r', t.setAt path x = .ok r' ∧ r'.select path = .ok (x, r') := by
  induction path with
  | nil =>
      intro t n r _ x
      exact ⟨x, setAt_nil t x, select_nil x⟩
  | cons first rest ih =>
      intro t n r h x
      cases t with
      | unknown =>
          simp only [PolicyNode.select] at h
          cases hsub : PolicyNode.select .unknown rest with
          | error e => rw [hsub] at h; simp at h
          | ok vs =>
              obtain ⟨v, sub⟩ := vs
              obtain ⟨s', hs1, hs2⟩ := ih _ _ _ hsub x
              refine ⟨.dict [(first, s')], ?_, ?_⟩
              · simp only [PolicyNode.setAt, hs1]
              · simp only [PolicyNode.select, alookup_single, Option.getD_some]
                rw [hs2]
                simp [aset_single]
      | leaf d => simp [PolicyNode.select] at h
      | dict ns =>
          simp only [PolicyNode.select] at h
          cases hc : PolicyNode.select ((alookup first ns).getD .unknown) rest with
          | error e => rw [hc] at h; simp at h
          | ok nf =>
              obtain ⟨n0, f0⟩ := nf
              obtain ⟨s', hs1, hs2⟩ := ih _ _ _ hc x
              refine ⟨.dict (aset first s' ns), ?_, ?_⟩
              · simp only [PolicyNode.setAt, hs1]
              · simp only [PolicyNode.select, alookup_aset_self, Option.getD_some]
                rw [hs2]
                simp [aset_aset_self]

theorem exceptMapM_ok_mem (f : α → Except Err β) (xs : List α) (ys : List β)
    (h : exceptMapM f xs = .ok ys) (b : β) (hb : b ∈ ys) :
    ∃ a ∈ xs, f a = .ok b := by
  induction xs generalizing ys with
  | nil =>
      simp only [exceptMapM] at h
      cases h
      simp at hb
  | cons a rest ih =>
      simp only [exceptMapM] at h
      cases hfa : f a with
      | error e => rw [hfa] at h; simp at h
      | ok b0 =>
          rw [hfa] at h
          simp only at h
          cases hrest : exceptMapM f rest with
          | error e => rw [hrest] at h; simp at h
          | ok bs =>
              rw [hrest] at h
              simp only at h
              cases h
              rcases List.mem_cons.mp hb with hb0 | hbs
              · exact ⟨a, by simp, by rw [hfa, hb0]⟩
              · obtain ⟨a', ha', hfa'⟩ := ih bs hrest hbs
                exact ⟨a', by simp [ha'], hfa'⟩

theorem exceptMapM_congr_ok (f : α → Except Err β) (g : α → β) (xs : List α)
    (h : ∀ a ∈ xs, f a = .ok (g a)) : exceptMapM f xs = .ok (xs.map g) := by
  induction xs with
  | nil => rfl
  | cons a rest ih =>
      simp only [exceptMapM]
      rw [h a (by simp), ih (fun x hx => h x (by simp [hx]))]
      simp

theorem mBindE_ok_mem (r : PolicyResult) (f : Outcome → PolicyResult) (res : List Outcome)
    (h : mBindE r f = .ok res) (out : Outcome) (hout : out ∈ res) :
    ∃ xs, r = .ok xs ∧ ∃ x ∈ xs, ∃ ys, f x = .ok ys ∧ out ∈ ys := by
  unfold mBindE at h
  cases hr : r with
  | error e => rw [hr] at h; simp at h
  | ok xs =>
      rw [hr] at h
      simp only at h
      cases hm : exceptMapM f xs with
      | error e => rw [hm] at h; simp at h
      | ok yss =>
          rw [hm] at h
          simp only at h
          cases h
          obtain ⟨ys, hys, hoys⟩ := List.mem_flatten.mp hout
          obtain ⟨x, hx, hfx⟩ := exceptMapM_ok_mem f xs yss hm ys hys
          exact ⟨xs, rfl, x, hx, ys, hfx, hoys⟩

theorem foldl_mBindE_all (P : Outcome → Prop) (g : RuleFunc → Outcome → PolicyResult)
    (fs : List RuleFunc) (acc : PolicyResult)
    (hacc : ∀ xs, acc = .ok xs → ∀ out ∈ xs, P out)
    (hstep : ∀ rf ∈ fs, ∀ x ys, g rf x = .ok ys → ∀ out ∈ ys, P out)
    (res : List Outcome)
    (h : fs.foldl (fun a rf => mBindE a (g rf)) acc = .ok res) :
    ∀ out ∈ res, P out := by
  induction fs generalizing acc with
  | nil =>
      simp only [List.foldl_nil] at h
      exact hacc res h
  | cons rf fs ih =>
      simp only [List.foldl_cons] at h
      refine ih (mBindE acc (g rf)) ?_ (fun rf' h' => hstep rf' (by simp [h'])) h
      intro xs hxs out hout
      obtain ⟨xs0, _, x, _, ys, hys, hoys⟩ := mBindE_ok_mem acc (g rf) xs hxs out hout
      exact hstep rf (by simp) x ys hys out hoys

theorem select_true_path (p : Partial) (s : String) (n : PolicyNode) (q : Partial)
    (h : p.select s true = .ok (n, q)) : q.path = p.resolve s := by
  exact ((select_ok_iff p s true n q).mp h).2

theorem regarding_step_path (sel : String) (rf : RuleFunc) (q : Partial)
    (ys : List Outcome) (h : regarding_step sel rf q = .ok ys) :
    ∀ out ∈ ys, out.2.path = splitScope q.scope := by
  unfold regarding_step at h
  cases hsel : q.select sel true with
  | error e => rw [hsel] at h; simp at h
  | ok ni =>
      obtain ⟨node, inner⟩ := ni
      rw [hsel] at h
      simp only at h
      cases hrun : (match rf with
          | .rule r => r inner
          | .func f =>
              f (if !node.value.truthy then .node node else .py node.value) inner) with
      | error e => rw [hrun] at h; simp at h
      | ok results =>
          rw [hrun] at h
          simp only at h
          intro out hout
          obtain ⟨r0, _, hr0⟩ := exceptMapM_ok_mem _ results ys h out hout
          revert hr0
          cases hresc : r0.2.select q.scope true with
          | error e => simp
          | ok rp =>
              obtain ⟨n2, resc⟩ := rp
              intro hr0
              simp only at hr0
              cases hr0
              have := select_true_path r0.2 q.scope n2 resc hresc
              rw [this, resolve_scope]

theorem splitScope_of_scope (p : Partial) (hv : p.validPath = true) :
    splitScope p.scope = p.path :=
  splitScope_scope p.path hv

theorem regarding_restores (sel : String) (fs : List RuleFunc) (p : Partial)
    (hv : p.validPath = true) (res : List Outcome)
    (h : regarding sel fs p = .ok res) :
    ∀ out ∈ res, out.2.path = p.path := by
  unfold regarding at h
  by_cases hfs : fs.isEmpty
  · rw [if_pos hfs] at h
    unfold bindR mBindE selectOp at h
    cases hps : p.select sel false with
    | error e => rw [hps] at h; simp at h
    | ok np =>
        obtain ⟨node, p2⟩ := np
        rw [hps] at h
        simp only [exceptMapM, unit_value, List.flatten] at h
        cases h
        intro out hout
        simp at hout
        rw [hout]
        have := ((select_ok_iff p sel false node p2).mp hps).2
        simpa using this
  · rw [if_neg hfs] at h
    unfold policies at h
    intro out hout
    refine foldl_mBindE_all (fun o => o.2.path = p.path) _ _ _ ?_ ?_ res h out hout
    · intro xs hxs o ho
      cases hxs
      simp at ho
      rw [ho]
    · intro rf' hrf' x ys hys o ho
      obtain ⟨rf0, _, hrf0⟩ := List.mem_map.mp hrf'
      cases hrf0
      revert hys
      cases hsc : x.2.select p.scope true with
      | error e => simp
      | ok sp =>
          obtain ⟨n1, scp⟩ := sp
          intro hys
          simp only [RuleFunc.apply] at hys
          have hscpath : scp.path = p.path := by
            have := select_true_path x.2 p.scope n1 scp hsc
            rw [this, resolve_scope, splitScope_of_scope p hv]
          have hsteps := regarding_step_path sel rf0 scp ys hys o ho
          rw [hsteps, scope_eq_of_path_eq scp p hscpath, splitScope_of_scope p hv]

theorem flatten_map_singleton (g : α → β) (xs : List α) :
    (xs.map (fun a => [g a])).flatten = xs.map g := by
  induction xs with
  | nil => rfl
  | cons a rest ih => simp [ih]

theorem resolve_empty (p : Partial) : p.resolve "" = splitScope p.scope := by
  unfold Partial.resolve
  simp

theorem select_here (p : Partial) (hv : p.validPath = true) (n root' : PolicyNode)
    (hsel : p.root.select p.path = .ok (n, root')) :
    p.select "" = .ok (n, ⟨root', p.path⟩) := by
  unfold Partial.select
  rw [resolve_empty, splitScope_of_scope p hv]
  simp [hsel]

theorem matchOp_unknown (p : Partial) (hv : p.validPath = true) (root' : PolicyNode)
    (hsel : p.root.select p.path = .ok (.unknown, root')) (v : PyVal) :
    ∃ r, root'.setAt p.path (.leaf (Value v)) = .ok r ∧
      matchOp v p = .ok [(.py v, ⟨r, p.path⟩)] ∧
      r.select p.path = .ok (.leaf (Value v), r) := by
  have hidem := select_idem p.path _ _ _ hsel
  obtain ⟨r, hr1, hr2⟩ := select_setAt p.path root' .unknown root' hidem (.leaf (Value v))
  refine ⟨r, hr1, ?_, hr2⟩
  unfold matchOp Partial.matchP
  rw [select_here p hv .unknown root' hsel]
  simp [PolicyNode.matchN, Partial.set_node, hr1]

/-- C1: on a Partial whose scoped node is Unknown, `permit_values([v1..vn])`
yields exactly n outcome branches, one per value in input order, each
carrying its own Partial whose scoped node has become a leaf holding that
value. -/
theorem spec_c1_permit_values_forks (p : Partial) (hv : p.validPath = true)
    (root' : PolicyNode) (hsel : p.root.select p.path = .ok (.unknown, root'))
    (vs : List PyVal) :
    ∃ f : PyVal → PolicyNode,
      permit_values vs p = .ok (vs.map (fun v => (.py v, Partial.mk (f v) p.path))) ∧
      ∀ v ∈ vs, (f v).select p.path = .ok (.leaf (Value v), f v) := by
  refine ⟨fun v => (root'.setAt p.path (.leaf (Value v))).toOption.getD .unknown, ?_, ?_⟩
  · unfold permit_values
    have hm := exceptMapM_congr_ok (fun value => matchOp value p)
      (fun v => [((.py v : RVal),
        Partial.mk ((root'.setAt p.path (.leaf (Value v))).toOption.getD .unknown) p.path)])
      vs ?_
    · rw [hm]
      simp only []
      rw [flatten_map_singleton
        (fun v => ((.py v : RVal),
          Partial.mk ((root'.setAt p.path (.leaf (Value v))).toOption.getD .unknown) p.path)) vs]
    · intro v _
      obtain ⟨r, hr1, hr2, _⟩ := matchOp_unknown p hv root' hsel v
      simp only [hr2, hr1]
      rfl
  · intro v _
    obtain ⟨r, hr1, _, hr3⟩ := matchOp_unknown p hv root' hsel v
    simp only [hr1]
    simpa using hr3

theorem spec_c1_witness :
    ∃ f : PyVal → PolicyNode,
      permit_values [.int 5, .int 6] (Partial.mk .unknown [])
        = .ok ([PyVal.int 5, PyVal.int 6].map
            (fun v => (.py v, Partial.mk (f v) (Partial.mk PolicyNode.unknown []).path))) ∧
      ∀ v ∈ [PyVal.int 5, PyVal.int 6],
        (f v).select (Partial.mk PolicyNode.unknown []).path = .ok (.leaf (Value v), f v) :=
  spec_c1_permit_values_forks ⟨.unknown, []⟩ rfl .unknown rfl [.int 5, .int 6]

/-- C2: when the rules given to `attempt` produce the empty result, `attempt`
with no catch yields exactly one outcome, the original pre-attempt
`(value, partial)` unchanged, and `attempt` with a catch yields exactly the
outcomes of the catch rule applied to that original pair; a non-empty
combined result is returned as-is. -/
theorem spec_c2_attempt_fallback (rules : List RuleFunc) (value : RVal) (p : Partial) :
    (collect rules value p = .ok [] →
      (attempt rules Option.none value p = .ok [(value, p)] ∧
        ∀ c, attempt rules (some c) value p = c.apply value p))
    ∧ (∀ res, collect rules value p = .ok res → res.isEmpty = false →
        ∀ catchF, attempt rules catchF value p = .ok res) := by
  constructor
  · intro h
    constructor
    · unfold attempt
      rw [h]
      rfl
    · intro c
      unfold attempt
      rw [h]
      rfl
  · intro res h hne catchF
    unfold attempt
    rw [h]
    simp [hne]

theorem spec_c2_witness :
    attempt [.rule fail] Option.none (.py (.int 9)) (Partial.mk .unknown [])
        = .ok [(.py (.int 9), Partial.mk .unknown [])]
      ∧ attempt [.rule fail] (some (.rule (set_value (.int 3)))) (.py (.int 9))
          (Partial.mk .unknown [])
        = RuleFunc.apply (.rule (set_value (.int 3))) (.py (.int 9)) (Partial.mk .unknown []) :=
  ⟨((spec_c2_attempt_fallback [.rule fail] (.py (.int 9)) ⟨.unknown, []⟩).1 rfl).1,
    ((spec_c2_attempt_fallback [.rule fail] (.py (.int 9)) ⟨.unknown, []⟩).1 rfl).2
      (.rule (set_value (.int 3)))⟩

/-- C3: `children()` on a Partial whose root is the Dict node built from
`{"foo": 5}` yields one outcome whose value is the EMPTY list, although the
node at scope is a Dict with key set `["foo"]` — `hasattr(node, 'keys')` is
false for `DictPolicyNode`, contradicting the spec and
src/tests/test_operators.py:410-417, which expects `[['foo']]`. -/
theorem spec_c3_children_dict_bug :
    children (Partial.from_obj (.dict [("foo", .int 5)]))
        = .ok [(.py (.list []), Partial.from_obj (.dict [("foo", .int 5)]))]
      ∧ ∃ n r, (Partial.from_obj (.dict [("foo", .int 5)])).select "" = .ok (n, r)
          ∧ n.keysOf = ["foo"]
          ∧ n.hasKeysAttr = false := by
  exact ⟨rfl, _, _, rfl, rfl, rfl⟩

/-- C4 as stated is false: with a falsy pre-existing value the match is
skipped.  At a Partial whose scoped node holds the concrete value `0` and the
definition `Value(5)`, `definition.match(0)` fails, yet `define_as` produces
one outcome with the node overwritten by `Leaf(Value(5))`. -/
theorem spec_c4_counterexample :
    ((Value (.int 5)).matchD (.int 0)).1 = false
      ∧ (Partial.mk (.leaf (Value (.int 0))) []).scope_value = .ok (.int 0)
      ∧ define_as (Value (.int 5)) (Partial.mk (.leaf (Value (.int 0))) [])
          = .ok [(.defn (Value (.int 5)), Partial.mk (.leaf (Value (.int 5))) [])] :=
  ⟨rfl, rfl, rfl⟩

theorem scope_value_ok_select (p : Partial) (hv : p.validPath = true) (v : PyVal)
    (hsv : p.scope_value = .ok v) :
    ∃ n r, p.root.select p.path = .ok (n, r) ∧ n.value = v := by
  unfold Partial.scope_value Partial.select at hsv
  rw [resolve_scope_valid p p hv] at hsv
  cases hsel : p.root.select p.path with
  | error e =>
      simp only [hsel] at hsv
      exact absurd hsv (by simp)
  | ok nr =>
      obtain ⟨n, r⟩ := nr
      simp only [hsel, Except.ok.injEq] at hsv
      exact ⟨n, r, rfl, hsv⟩

/-- C4 amended: for a Partial whose scoped node holds a TRUTHY concrete value
v, `define_as(d)` succeeds (narrowing the node to the matched definition) iff
`d.match(v)` succeeds, and a failed match produces zero outcomes with no new
Partial; a falsy pre-existing value skips the check (see the
counterexample). -/
theorem spec_c4_define_as_truthy (p : Partial) (hv : p.validPath = true) (v : PyVal)
    (hsv : p.scope_value = .ok v) (ht : v.truthy = true) (d : Definition) :
    ((d.matchD v).1 = false → define_as d p = .ok [])
      ∧ ((d.matchD v).1 = true →
          ∃ p', define_as d p = .ok [(.defn (d.matchD v).2, p')]
            ∧ p'.path = p.path
            ∧ p'.root.select p.path = .ok (.leaf (d.matchD v).2, p'.root)) := by
  constructor
  · intro hm
    unfold define_as Partial.define_as
    rw [hsv]
    simp only [ht, if_true, hm]
    rfl
  · intro hm
    obtain ⟨n, r, hsel, _⟩ := scope_value_ok_select p hv v hsv
    obtain ⟨r', hr1, hr2⟩ := select_setAt p.path p.root n r hsel (.leaf (d.matchD v).2)
    refine ⟨⟨r', p.path⟩, ?_, rfl, ?_⟩
    · unfold define_as Partial.define_as
      rw [hsv]
      simp only [ht, if_true, hm]
      unfold Partial.set_node
      rw [hr1]
    · exact hr2

theorem spec_c4_witness :
    define_as (Value (.int 4)) (Partial.mk (.leaf (Value (.int 3))) []) = .ok [] :=
  (spec_c4_define_as_truthy ⟨.leaf (Value (.int 3)), []⟩ rfl (.int 3) rfl rfl
    (Value (.int 4))).1 rfl

/-- C5: every successful outcome of `regarding(sel, r1..rn)` carries a
Partial whose scope is restored to the caller's original pre-regarding scope
(for any selector, rules, and valid starting Partial); and each rule starts
with the scope reset to the selector even when a preceding rule moved the
scope elsewhere — witnessed by the second conjunct, where the first rule
moves the scope to `/b` and the second (a bare `set_value`) still writes at
`/a`, the regarding selector, with the final scope back at the root. -/
theorem spec_c5_regarding_scope :
    (∀ (sel : String) (fs : List RuleFunc) (p : Partial) (res : List Outcome),
        p.validPath = true → regarding sel fs p = .ok res →
        ∀ out ∈ res, out.2.path = p.path)
    ∧ regarding "/a" [.rule (selectOp "/b" true), .rule (set_value (.int 7))]
        (Partial.from_obj (.dict []))
      = .ok [(.node .unknown,
          ⟨.dict [("a", .leaf (Value (.int 7))), ("b", .unknown)], []⟩)] :=
  ⟨fun sel fs p res hv h => regarding_restores sel fs p hv res h, rfl⟩

theorem spec_c5_witness :
    ∀ out ∈ [((RVal.node .unknown),
        (⟨.dict [("a", .leaf (Value (.int 7))), ("b", .unknown)], []⟩ : Partial))],
      out.2.path = (Partial.from_obj (.dict [])).path :=
  spec_c5_regarding_scope.1 "/a" [.rule (selectOp "/b" true), .rule (set_value (.int 7))]
    (Partial.from_obj (.dict [])) _ rfl spec_c5_regarding_scope.2

/-- C6: selecting into a Leaf with a non-empty remaining path raises the
structural error, a channel distinct from the ordinary (possibly empty)
outcome list; the error propagates through monadic binding and is never
absorbed by `attempt`'s empty-result fallback, so it aborts the whole
evaluation with no partial results. -/
theorem spec_c6_leaf_select_fatal :
    (∀ (d : Definition) (first : String) (rest : List String),
        (PolicyNode.leaf d).select (first :: rest) = .error .cannotTraverse)
    ∧ (∀ (r : Rule) (f : RVal → Rule) (p : Partial) (e : Err),
        r p = .error e → bindR r f p = .error e)
    ∧ (∀ (rules : List RuleFunc) (catchF : Option RuleFunc) (value : RVal)
        (p : Partial) (e : Err),
        collect rules value p = .error e → attempt rules catchF value p = .error e) := by
  refine ⟨fun d first rest => rfl, ?_, ?_⟩
  · intro r f p e h
    unfold bindR mBindE
    rw [h]
  · intro rules catchF value p e h
    unfold attempt
    rw [h]

theorem spec_c6_witness :
    bindR (selectOp "/a" false) (fun _ => unit (.py .none))
        (Partial.mk (.leaf (Value (.int 1))) []) = .error .cannotTraverse
    ∧ attempt [.rule (selectOp "/a" false)] (some (.rule (set_value (.int 3))))
        (.py .none) (Partial.mk (.leaf (Value (.int 1))) []) = .error .cannotTraverse :=
  ⟨spec_c6_leaf_select_fatal.2.1 _ _ _ _ rfl,
    spec_c6_leaf_select_fatal.2.2 _ _ _ _ _ rfl⟩

/-- C7: `Incomplete.complete(m)` finishes by applying the completion function
to the accumulated values when `m` covers the whole missing set, and
otherwise returns a new Incomplete whose missing set is exactly the old one
minus the keys of `m`, with the supplied values accumulated (the original,
being a value, is unchanged). -/
theorem spec_c7_incomplete_complete {κ R V : Type} [DecidableEq κ]
    (i : Incomplete κ R V) (tv : List (κ × V)) :
    (i.missing ⊆ (tv.map Prod.fst).toFinset →
        i.complete tv = .inl (i.func (dictUpdate i.got tv)))
    ∧ (¬ i.missing ⊆ (tv.map Prod.fst).toFinset →
        i.complete tv = .inr ⟨i.func, i.missing \ (tv.map Prod.fst).toFinset,
          dictUpdate i.got tv⟩) := by
  constructor <;> intro h <;> unfold Incomplete.complete
  · rw [if_pos (Finset.sdiff_eq_empty_iff_subset.mpr h)]
  · rw [if_neg (fun hh => h (Finset.sdiff_eq_empty_iff_subset.mp hh))]

theorem spec_c7_witness :
    Incomplete.complete (⟨fun l => l.length, {1}, []⟩ : Incomplete ℕ ℕ ℕ) [(1, 5)]
        = .inl 1
    ∧ Incomplete.complete (⟨fun l => l.length, {1, 2}, []⟩ : Incomplete ℕ ℕ ℕ) [(1, 5)]
        = .inr ⟨(⟨fun l => l.length, {1, 2}, []⟩ : Incomplete ℕ ℕ ℕ).func,
            {1, 2} \ {1}, [(1, 5)]⟩ :=
  ⟨((spec_c7_incomplete_complete ⟨fun l => l.length, {1}, []⟩ [(1, 5)]).1
      (by decide)).trans rfl,
    ((spec_c7_incomplete_complete ⟨fun l => l.length, {1, 2}, []⟩ [(1, 5)]).2
      (by decide)).trans rfl⟩

/-- C8: `unless_errors(r1..rn)` is a no-op (one outcome, unchanged Partial,
no rule run) when the root object carries a non-empty list at `errors`, and
runs exactly `policies(r1..rn)` when the `errors` entry is an empty list or
absent. -/
theorem spec_c8_unless_errors (rules : List RuleFunc) (p : Partial)
    (kvs : List (String × PyVal)) (hroot : p.rootObj = .dict kvs) :
    (∀ es, alookup "errors" kvs = some (.list es) → es ≠ [] →
        unless_errors rules p = .ok [(.py .none, p)])
    ∧ (((alookup "errors" kvs).getD PyVal.none).truthy = false →
        unless_errors rules p = policies rules p) := by
  constructor
  · intro es hes hne
    unfold unless_errors
    simp only [hroot, hes, Option.getD_some]
    have ht : (PyVal.list es).truthy = true := by
      unfold PyVal.truthy
      simpa using hne
    simp [ht]
  · intro ht
    unfold unless_errors
    simp only [hroot]
    simp [ht]

theorem spec_c8_witness :
    unless_errors [.rule (set_value (.int 3))]
        (Partial.from_obj (.dict [("errors", .list [.int 0])]))
      = .ok [(.py .none, Partial.from_obj (.dict [("errors", .list [.int 0])]))]
    ∧ unless_errors [] (Partial.from_obj (.dict [("errors", .list [])]))
      = policies [] (Partial.from_obj (.dict [("errors", .list [])])) :=
  ⟨(spec_c8_unless_errors [.rule (set_value (.int 3))]
      (Partial.from_obj (.dict [("errors", .list [.int 0])]))
      [("errors", .list [.int 0])] rfl).1 [.int 0] rfl (by simp),
    (spec_c8_unless_errors [] (Partial.from_obj (.dict [("errors", .list [])]))
      [("errors", .list [])] rfl).2 rfl⟩

/-- C9: selecting an absolute path with path-setting and then selecting it
again on the resulting Partial yields the same node and the same Partial as
selecting it once, even when the first select materialized
previously-unknown nodes along the path (src/partial.py select). -/
theorem spec_c9_selectJP_idempotent (p : Partial) (s : String)
    (hs : s.data.head? = some '/') (n : PolicyNode) (p1 : Partial)
    (h : p.selectJP s true = .ok (n, p1)) :
    p1.selectJP s true = .ok (n, p1) := by
  have hne : s.data ≠ [] := by
    intro hh
    rw [hh] at hs
    exact Option.noConfusion hs
  have hcond : ¬s.data.head? ≠ some '/' := fun hh => hh hs
  unfold Partial.selectJP at h ⊢
  simp only [if_neg hne, if_neg hcond] at h ⊢
  cases hjp : jpParts s with
  | error e =>
      rw [hjp] at h
      simp at h
  | ok parts =>
      rw [hjp] at h
      simp only [] at h
      cases hsel : p.root.select parts with
      | error e => rw [hsel] at h; simp at h
      | ok nr =>
          obtain ⟨n0, r0⟩ := nr
          rw [hsel] at h
          simp only [if_true] at h
          cases h
          simp [select_idem parts _ _ _ hsel]

theorem spec_c9_witness :
    (Partial.mk (.dict [("a", .unknown)]) ["a"]).selectJP "/a" true
      = .ok (.unknown, Partial.mk (.dict [("a", .unknown)]) ["a"]) :=
  spec_c9_selectJP_idempotent ⟨.unknown, []⟩ "/a" rfl .unknown
    ⟨.dict [("a", .unknown)], ["a"]⟩ rfl

/-- C10: the argument `regarding` passes to a rule function is the node's
value only when that value is truthy; for a falsy value the node object
itself is passed instead, so under `regarding` a rule function's behaviour
on plain values is irrelevant when the node value is falsy (and its
behaviour on nodes is irrelevant when the value is truthy). -/
theorem spec_c10_regarding_arg (sel : String) (p : Partial) (n : PolicyNode)
    (inner : Partial) (h : p.select sel true = .ok (n, inner)) (f g : RVal → Rule) :
    (n.value.truthy = false → (∀ m : PolicyNode, f (.node m) = g (.node m)) →
        regarding_step sel (.func f) p = regarding_step sel (.func g) p)
    ∧ (n.value.truthy = true → (∀ w : PyVal, f (.py w) = g (.py w)) →
        regarding_step sel (.func f) p = regarding_step sel (.func g) p) := by
  constructor <;> intro ht hagree
  · have hval : (if !n.value.truthy then RVal.node n else RVal.py n.value) = .node n := by
      rw [ht]
      rfl
    unfold regarding_step
    simp only [h, hval]
    rw [hagree n]
  · have hval : (if !n.value.truthy then RVal.node n else RVal.py n.value)
        = .py n.value := by
      rw [ht]
      rfl
    unfold regarding_step
    simp only [h, hval]
    rw [hagree n.value]

theorem spec_c10_witness :
    regarding_step "" (.func (fun _ => unit (.py (.int 1)))) (Partial.mk .unknown [])
      = regarding_step ""
          (.func (fun r => match r with
            | .node _ => unit (.py (.int 1))
            | _ => fail))
          (Partial.mk .unknown []) :=
  (spec_c10_regarding_arg "" ⟨.unknown, []⟩ .unknown ⟨.unknown, []⟩ rfl
    (fun _ => unit (.py (.int 1)))
    (fun r => match r with
      | .node _ => unit (.py (.int 1))
      | _ => fail)).1 rfl (fun _ => rfl)

end Calcifer
